import Mathlib

/-!
# Verification of the regieleki DNS server core

Shallow embedding of the Go source of the regieleki DNS server: the wire
codec (dns.go: parseDNSName, encodeDNSName, buildDNSResponse, buildServFail,
the pure decision logic of DNSServer.handleQuery) and the record store
(store.go: load, save, rebuildIndex/Resolve, Add, Update, Delete).

Go strings are byte slices; we model every string (domain names, record
fields, file contents) as a `List Nat` of byte values.  Go byte-slice
buffers are likewise `List Nat`.  Machine-integer truncations from the Go
code (byte(...), uint16 counters) are modelled with explicit `% 256` /
`% 65536`.  Fallible operations return `Option`.
-/

namespace Regieleki

/-! ## Byte-string utilities (Go standard library behaviour on byte level) -/

/-- Byte-wise ASCII lower-casing, as Go strings.ToLower acts on ASCII input
(bytes 65-90 map to 97-122, everything else unchanged).  All case-mapped
data exercised by this code base is ASCII. -/
def goToLower (s : List Nat) : List Nat :=
  s.map fun c => if 65 ≤ c ∧ c ≤ 90 then c + 32 else c

/-- Byte-wise ASCII upper-casing, as Go strings.ToUpper acts on ASCII input. -/
def goToUpper (s : List Nat) : List Nat :=
  s.map fun c => if 97 ≤ c ∧ c ≤ 122 then c - 32 else c

/-- Go strings.TrimRight with a single-byte cut set: drop all trailing
occurrences of byte c. -/
def trimRightByte (c : Nat) (s : List Nat) : List Nat :=
  (s.reverse.dropWhile fun b => b = c).reverse

/-- Decimal digit list (most significant first) of a natural number,
as produced by Go strconv.Itoa for non-negative values. -/
def natToDigits (n : Nat) : List Nat :=
  if h : n < 10 then [48 + n]
  else natToDigits (n / 10) ++ [48 + n % 10]
  decreasing_by exact Nat.div_lt_self (by omega) (by norm_num)

/-- Go strconv.Itoa on a (mathematical) integer: optional leading minus
sign (byte 45) followed by the decimal digits. -/
def goItoa (n : Int) : List Nat :=
  if n < 0 then 45 :: natToDigits (-n).toNat else natToDigits n.toNat

/-- Value of a non-empty all-digit byte string, none otherwise. -/
def digitsVal : List Nat → Option Nat
  | [] => none
  | s =>
    if s.all fun c => 48 ≤ c ∧ c ≤ 57 then
      some (s.foldl (fun acc c => 10 * acc + (c - 48)) 0)
    else none

/-- Go strconv.Atoi: optional sign, then a non-empty digit string.
(64-bit overflow, which Atoi reports as an error, is not modelled; no id
in this development approaches it.) -/
def goAtoi (s : List Nat) : Option Int :=
  match s with
  | [] => none
  | c :: rest =>
      if c = 43 then (digitsVal rest).map fun n => (n : Int)
      else if c = 45 then (digitsVal rest).map fun n => -(n : Int)
      else (digitsVal (c :: rest)).map fun n => (n : Int)

/-! ## Wire codec: parseDNSName (dns.go lines 138-186)

The Go loop `for maxJumps > 0` interleaves label reads (offset strictly
increases towards the end of the buffer) with compression-pointer jumps
(maxJumps strictly decreases), so it terminates; the Lean translation is
by well-founded recursion on the lexicographic pair
(maxJumps, buf.length - offset). -/

/-- One iteration state of the parseDNSName loop.  Returns none for the
error outcome (Go: name = "", offset = -1) and some (parts, returnOffset)
for success.  parts accumulates the labels in order (Go: parts slice). -/
def parseLoop (buf : List Nat) (offset : Nat) (parts : List (List Nat))
    (jumped : Bool) (returnOffset : Nat) (maxJumps : Nat) :
    Option (List (List Nat) × Nat) :=
  if maxJumps = 0 then none
  else if _hoff : buf.length ≤ offset then none
  else
    let length := buf.getD offset 0
    if length = 0 then
      some (parts, if jumped then returnOffset else offset + 1)
    else if length &&& 0xC0 = 0xC0 then
      if buf.length ≤ offset + 1 then none
      else
        let ptr := (length &&& 0x3F) <<< 8 ||| buf.getD (offset + 1) 0
        parseLoop buf ptr parts true
          (if jumped then returnOffset else offset + 2) (maxJumps - 1)
    else
      if _hlen : buf.length < offset + 1 + length then none
      else
        parseLoop buf (offset + 1 + length)
          (parts ++ [(buf.drop (offset + 1)).take length]) jumped returnOffset maxJumps
termination_by (maxJumps, buf.length - offset)
decreasing_by
  · exact Prod.Lex.left _ _ (by omega)
  · exact Prod.Lex.right _ (by omega)

/-- parseDNSName (dns.go): reads a DNS name in wire format starting at
offset; returns the dotted name (labels joined by byte 46) and the offset
after the name, or (empty, -1) on a decode error. -/
def parseDNSName (buf : List Nat) (offset : Nat) : List Nat × Int :=
  match parseLoop buf offset [] false offset 10 with
  | none => ([], -1)
  | some (parts, ro) => (List.intercalate [46] parts, (ro : Int))

/-- encodeDNSName (dns.go lines 188-199): split on byte 46, emit each
non-empty segment length-prefixed, terminate with a zero byte. -/
def encodeDNSName (name : List Nat) : List Nat :=
  ((name.splitOn 46).foldl
    (fun buf part => if part.length = 0 then buf else buf ++ (part.length % 256) :: part)
    []) ++ [0]

/-! ## net.ParseIP / IP.To4 / IP.To16

buildDNSResponse calls the Go standard library net.ParseIP, which (Go 1.17+)
delegates to netip.ParseAddr and rejects zoned addresses; ParseIP returns the
16-byte representation (IPv4 mapped into the ::ffff:0:0/96 prefix).  The
definitions below translate the netip parsing algorithm. -/

/-- Value of one decimal field of a dotted-quad, netip.parseIPv4 rules:
non-empty, digits only, no leading zero, at most 255. -/
def ipv4FieldOk (f : List Nat) : Bool :=
  !f.isEmpty && (f.all fun c => 48 ≤ c && c ≤ 57)
    && (f.length == 1 || f.headD 0 != 48)
    && f.foldl (fun a c => 10 * a + (c - 48)) 0 ≤ 255

/-- netip.parseIPv4: exactly four dot-separated fields, each a valid octet.
(The Go original is a single left-to-right scan; it accepts exactly the
strings accepted here, with the same octet values.) -/
def parseIPv4Bytes (s : List Nat) : Option (List Nat) :=
  let fields := s.splitOn 46
  if fields.length = 4 ∧ fields.all ipv4FieldOk then
    some (fields.map fun f => f.foldl (fun a c => 10 * a + (c - 48)) 0)
  else none

/-- Hexadecimal digit value, as accepted inside an IPv6 group. -/
def hexVal (c : Nat) : Option Nat :=
  if 48 ≤ c ∧ c ≤ 57 then some (c - 48)
  else if 97 ≤ c ∧ c ≤ 102 then some (c - 97 + 10)
  else if 65 ≤ c ∧ c ≤ 70 then some (c - 65 + 10)
  else none

theorem dropWhile_length_le (p : Nat → Bool) (s : List Nat) :
    (s.dropWhile p).length ≤ s.length := by
  have h := congrArg List.length (List.takeWhile_append_dropWhile p s)
  simp only [List.length_append] at h
  omega

/-- Loop body of netip.parseIPv6: reads colon-separated hex groups (at most
4 digits each), one optional `::` ellipsis whose byte position is recorded,
and an optional embedded dotted-quad tail.  Returns (bytes filled, ip bytes
so far, ellipsis position) or none on a parse error. -/
def v6Loop (s : List Nat) (i : Nat) (ip : List Nat) (ellipsis : Option Nat) :
    Option (Nat × List Nat × Option Nat) :=
  if 16 ≤ i then
    if s = [] then some (i, ip, ellipsis) else none
  else
    let digits := s.takeWhile fun c => (hexVal c).isSome
    let rest := s.dropWhile fun c => (hexVal c).isSome
    if digits = [] then none
    else if 4 < digits.length then none
    else
      let acc := digits.foldl (fun a c => 16 * a + ((hexVal c).getD 0)) 0
      match hr : rest with
      | 46 :: _ =>
          if (ellipsis = none ∧ i ≠ 12) ∨ 16 < i + 4 then none
          else (parseIPv4Bytes s).map fun ip4 => (i + 4, ip ++ ip4, ellipsis)
      | [] => some (i + 2, ip ++ [acc >>> 8, acc % 256], ellipsis)
      | [58] => none
      | 58 :: 58 :: rest3 =>
          if ellipsis.isSome then none
          else if rest3 = [] then some (i + 2, ip ++ [acc >>> 8, acc % 256], some (i + 2))
          else v6Loop rest3 (i + 2) (ip ++ [acc >>> 8, acc % 256]) (some (i + 2))
      | 58 :: rest2 =>
          v6Loop rest2 (i + 2) (ip ++ [acc >>> 8, acc % 256]) ellipsis
      | _ => none
termination_by s.length
decreasing_by
  all_goals
    have h2 : rest.length ≤ s.length := dropWhile_length_le _ _
    rw [hr] at h2
    simp only [List.length_cons] at h2
    omega

/-- netip.parseIPv6: leading `::` handling, main group loop, then expansion
of the ellipsis to the missing zero bytes. -/
def parseIPv6Bytes (s : List Nat) : Option (List Nat) :=
  let start : List Nat × Option Nat :=
    match s with
    | 58 :: 58 :: rest => (rest, some 0)
    | _ => (s, none)
  if start.2 = some 0 ∧ start.1 = [] then some (List.replicate 16 0)
  else
    match v6Loop start.1 0 [] start.2 with
    | none => none
    | some (i, ip, ellipsis) =>
        if i < 16 then
          match ellipsis with
          | none => none
          | some e => some (ip.take e ++ List.replicate (16 - i) 0 ++ ip.drop e)
        else if ellipsis.isSome then none
        else some ip

/-- net.ParseIP: dispatch on the first special character (netip.ParseAddr),
reject zoned addresses, return the 16-byte form (As16). -/
def goParseIP (s : List Nat) : Option (List Nat) :=
  match s.find? fun c => c == 46 || c == 58 || c == 37 with
  | some 46 => (parseIPv4Bytes s).map fun f =>
      [0, 0, 0, 0, 0, 0, 0, 0, 0, 0, 255, 255] ++ f
  | some 58 => parseIPv6Bytes s
  | _ => none

/-- net.IP.To4: a 4-byte address, or the low 4 bytes of a v4-in-v6 mapped
16-byte address; nil (none) otherwise. -/
def goTo4 (ip : List Nat) : Option (List Nat) :=
  if ip.length = 4 then some ip
  else if ip.length = 16 ∧ ip.take 10 = List.replicate 10 0
      ∧ ip.getD 10 0 = 255 ∧ ip.getD 11 0 = 255 then
    some (ip.drop 12)
  else none

/-- net.IP.To16: widen a 4-byte address to v4-in-v6 form, keep a 16-byte
address, nil otherwise. -/
def goTo16 (ip : List Nat) : Option (List Nat) :=
  if ip.length = 4 then some ([0, 0, 0, 0, 0, 0, 0, 0, 0, 0, 255, 255] ++ ip)
  else if ip.length = 16 then some ip
  else none

/-! ## Record store (store.go)

The Go Store carries a mutex (concurrency is outside this model), a file
path (file I/O is outside the model: load takes the file bytes, save
returns the bytes written) and a derived index.  The index (rebuildIndex,
store.go 128-134) maps each lower-cased domain to the records holding it,
in insertion order; an index lookup is therefore modelled as a filter over
the record list, which returns exactly the same sublist. -/

structure Record where
  id : Int
  domain : List Nat
  rtype : List Nat
  value : List Nat
deriving DecidableEq

structure Store where
  records : List Record
  nextID : Int
deriving DecidableEq

def typeA : List Nat := [65]
def typeAAAA : List Nat := [65, 65, 65, 65]
def typeCNAME : List Nat := [67, 78, 65, 77, 69]

/-- One line of Store.load (store.go 56-85): trim trailing CR bytes, skip
blank lines, split on tab into exactly 4 fields, parse the id, require a
supported record type.  none means the line is skipped with a warning. -/
def parseStoreLine (line : List Nat) : Option Record :=
  let line := trimRightByte 13 line
  if line = [] then none
  else
    let fields := line.splitOn 9
    if fields.length = 4 then
      match goAtoi (fields.getD 0 []) with
      | none => none
      | some id =>
          let rtype := fields.getD 2 []
          if rtype = typeA ∨ rtype = typeAAAA ∨ rtype = typeCNAME then
            some ⟨id, fields.getD 1 [], rtype, fields.getD 3 []⟩
          else none
    else none

/-- Store.load (store.go 38-90) on the bytes of the backing file.  A missing
file behaves like empty data: an empty store with nextID 1.  Otherwise trim
trailing newlines, split into lines, keep the lines that parse, and seed
nextID from the maximum id among parsed lines. -/
def loadStore (data : List Nat) : Store :=
  if data = [] then ⟨[], 1⟩
  else
    let lines := (trimRightByte 10 data).splitOn 10
    let st := lines.foldl
      (fun (acc : List Record × Int) line =>
        match parseStoreLine line with
        | none => acc
        | some r => (acc.1 ++ [r], if acc.2 < r.id then r.id else acc.2))
      ([], 0)
    ⟨st.1, st.2 + 1⟩

/-- One line written by Store.save (store.go 92-103):
id TAB domain TAB type TAB value LF. -/
def storeLine (r : Record) : List Nat :=
  goItoa r.id ++ 9 :: r.domain ++ 9 :: r.rtype ++ 9 :: r.value ++ [10]

/-- Store.save: the bytes written (atomically, via a temp file rename —
the file-system steps are outside the model) for the whole record list. -/
def saveStore (s : Store) : List Nat :=
  (s.records.map storeLine).flatten

/-- matchType (store.go 182-192). -/
def matchType (rtype : List Nat) (qtype : Nat) : Bool :=
  if qtype = 1 then rtype == typeA
  else if qtype = 28 then rtype == typeAAAA
  else if qtype = 5 then rtype == typeCNAME
  else false

/-- Lookup of the derived domain index at a key: the records whose
lower-cased domain equals the key, in insertion order. -/
def indexLookup (records : List Record) (key : List Nat) : List Record :=
  records.filter fun r => goToLower r.domain == key

/-- Store.Resolve (store.go 146-180). -/
def Store.Resolve (s : Store) (domain : List Nat) (qtype : Nat) :
    List Record × Bool :=
  let key := goToLower domain
  let all := indexLookup s.records key
  if all.length = 0 then ([], false)
  else if qtype = 255 then (all, true)
  else
    let result := all.filter fun r => matchType r.rtype qtype
    let result :=
      if result.length = 0 then
        match all.find? (fun r => r.rtype == typeCNAME) with
        | some c => [c]
        | none => []
      else result
    (result, true)

/-- Store.Add (store.go 194-204): assign nextID, bump it, normalize case,
append.  (The synchronous save is modelled separately by saveStore; a save
error does not change the in-memory outcome.) -/
def Store.Add (s : Store) (r : Record) : Record × Store :=
  let stored : Record := ⟨s.nextID, goToLower r.domain, goToUpper r.rtype, r.value⟩
  (stored, ⟨s.records ++ [stored], s.nextID + 1⟩)

/-- Store.Update (store.go 206-219) on the record list: replace the fields
of the first record with the given id, case-normalized. -/
def updateRecords (recs : List Record) (id : Int)
    (domain rtype value : List Nat) : Option (Record × List Record) :=
  match recs with
  | [] => none
  | r :: rest =>
      if r.id = id then
        let updated : Record := ⟨r.id, goToLower domain, goToUpper rtype, value⟩
        some (updated, updated :: rest)
      else
        (updateRecords rest id domain rtype value).map fun p => (p.1, r :: p.2)

/-- Store.Update; none models the os.ErrNotExist return. -/
def Store.Update (s : Store) (id : Int) (domain rtype value : List Nat) :
    Option (Record × Store) :=
  (updateRecords s.records id domain rtype value).map fun p => (p.1, ⟨p.2, s.nextID⟩)

/-- Store.Delete (store.go 221-232) on the record list: remove the first
record with the given id. -/
def deleteRecords (recs : List Record) (id : Int) : Option (List Record) :=
  match recs with
  | [] => none
  | r :: rest =>
      if r.id = id then some rest
      else (deleteRecords rest id).map fun l => r :: l

/-- Store.Delete; none models the os.ErrNotExist return. -/
def Store.Delete (s : Store) (id : Int) : Option Store :=
  (deleteRecords s.records id).map fun l => ⟨l, s.nextID⟩

/-! ## Response construction (dns.go 201-272) -/

/-- The answer emitted for one record by the loop of buildDNSResponse
(dns.go 207-231): the wire type code and RDATA, or none when the record is
skipped (unparsable address for its family, or an unsupported type). -/
def recordRR (r : Record) : Option (Nat × List Nat) :=
  if r.rtype = typeA then
    match (goParseIP r.value).bind goTo4 with
    | none => none
    | some ip4 => some (1, ip4)
  else if r.rtype = typeAAAA then
    match goParseIP r.value with
    | none => none
    | some ip => if (goTo4 ip).isSome then none else some (28, (goTo16 ip).getD [])
  else if r.rtype = typeCNAME then some (5, encodeDNSName r.value)
  else none

/-- buildDNSResponse (dns.go 201-260).  The answer bytes and the uint16
answer count are accumulated first, then the header, the copied question
section (query bytes 12..questionEnd) and the answers are assembled. -/
def buildDNSResponse (query : List Nat) (questionEnd : Nat)
    (records : List Record) : List Nat :=
  let st := records.foldl
    (fun (acc : List Nat × Nat) r =>
      match recordRR r with
      | none => acc
      | some (rt, rdata) =>
          (acc.1 ++ [0xC0, 0x0C, (rt >>> 8) % 256, rt % 256, 0, 1, 0, 0, 0, 60,
            (rdata.length >>> 8) % 256, rdata.length % 256] ++ rdata,
           (acc.2 + 1) % 65536))
    ([], 0)
  [query.getD 0 0, query.getD 1 0,
   0x84 ||| (query.getD 2 0 &&& 0x01), 0x80,
   0, 1,
   (st.2 >>> 8) % 256, st.2 % 256,
   0, 0, 0, 0]
  ++ (query.drop 12).take (questionEnd - 12)
  ++ st.1

/-- buildServFail (dns.go 262-272). -/
def buildServFail (query : List Nat) (questionEnd : Nat) : List Nat :=
  [query.getD 0 0, query.getD 1 0,
   0x80 ||| (query.getD 2 0 &&& 0x01), 0x82,
   0, 1, 0, 0, 0, 0, 0, 0]
  ++ (query.drop 12).take (questionEnd - 12)

/-- The pure decision logic of DNSServer.handleQuery (dns.go 90-134) for
one datagram.  Socket writes are outside the model: the result is the
datagram written back (some resp) or the silent drop (none).  The upstream
forwarding result (dns.go 127-133) is a parameter: forwardQuery either
yields some raw response or nil after exhausting the upstream list. -/
def handleQuery (s : Store) (buf : List Nat)
    (upstreamResp : Option (List Nat)) : Option (List Nat) :=
  if buf.length < 12 then none
  else if buf.getD 2 0 &&& 0x80 ≠ 0 then none
  else if (buf.getD 4 0) <<< 8 ||| buf.getD 5 0 = 0 then none
  else
    let pr := parseDNSName buf 12
    if pr.2 < 0 ∨ buf.length < pr.2.toNat + 4 then none
    else
      let offset := pr.2.toNat
      let qtype := (buf.getD offset 0) <<< 8 ||| buf.getD (offset + 1) 0
      let questionEnd := offset + 4
      let res := s.Resolve pr.1 qtype
      if res.2 then some (buildDNSResponse buf questionEnd res.1)
      else
        match upstreamResp with
        | some resp => some resp
        | none => some (buildServFail buf questionEnd)


/-! ## C1: termination and the compression-jump guard -/

/-- Target of the compression pointer whose first byte sits at offset o. -/
def ptrStep (buf : List Nat) (o : Nat) : Nat :=
  ((buf.getD o 0) &&& 0x3F) <<< 8 ||| buf.getD (o + 1) 0

/-- Offset reached after k pointer jumps starting at o. -/
def ptrChain (buf : List Nat) : Nat → Nat → Nat
  | 0, o => o
  | k + 1, o => ptrChain buf k (ptrStep buf o)

/-- Offset o holds a (fully in-bounds) compression pointer byte. -/
def isPtrAt (buf : List Nat) (o : Nat) : Prop :=
  o + 1 < buf.length ∧ (buf.getD o 0) &&& 0xC0 = 0xC0

instance (buf : List Nat) (o : Nat) : Decidable (isPtrAt buf o) := by
  unfold isPtrAt
  exact inferInstance

/-- If the first mj positions of the pointer chain from o are all pointers,
the parse loop started with jump budget mj exhausts it and errors out. -/
theorem parseLoop_all_ptr (buf : List Nat) :
    ∀ (mj o : Nat) (parts : List (List Nat)) (jumped : Bool) (ro : Nat),
      (∀ k < mj, isPtrAt buf (ptrChain buf k o)) →
      parseLoop buf o parts jumped ro mj = none := by
  intro mj
  induction mj with
  | zero =>
      intro o parts jumped ro _
      rw [parseLoop.eq_def]
      simp
  | succ n ih =>
      intro o parts jumped ro h
      have h0 : isPtrAt buf o := by
        have hh := h 0 (by omega)
        simpa [ptrChain] using hh
      obtain ⟨h1, h2⟩ := h0
      have hrec : parseLoop buf (ptrStep buf o) parts true
          (if jumped then ro else o + 2) n = none := by
        apply ih
        intro k hk
        have hh := h (k + 1) (by omega)
        simpa [ptrChain] using hh
      rw [parseLoop.eq_def]
      have hb : ¬ buf.length ≤ o := by omega
      have hnz : ¬ buf.getD o 0 = 0 := by
        intro hz
        rw [hz] at h2
        simp at h2
      have hb1 : ¬ buf.length ≤ o + 1 := by omega
      simp only [Nat.succ_ne_zero, if_false, dif_neg hb, if_neg hnz, if_pos h2,
        if_neg hb1, Nat.add_sub_cancel]
      exact hrec

/-- C1: parseDNSName terminates on every buffer and start offset (it is
defined by well-founded recursion on (maxJumps, buf.length - offset), which
mirrors why the Go loop terminates).  Amended jump-guard statement: whenever
the first 10 positions of the compression-pointer chain from the start
offset are all pointers — in particular on any chain that directly or
transitively points back to itself — the parse exhausts the jump budget and
reports the decode error (name = empty, next_offset = -1).  At most 9 jumps
can complete successfully; performing a 10th jump always fails. -/
theorem parseDNSName_pointer_chain_fails (buf : List Nat) (o : Nat)
    (h : ∀ k < 10, isPtrAt buf (ptrChain buf k o)) :
    parseDNSName buf o = ([], -1) := by
  unfold parseDNSName
  rw [parseLoop_all_ptr buf 10 o [] false o h]

/-- C1 witness: the direct self-pointing chain (buffer [0xC0, 0x00], a
pointer at offset 0 to offset 0) satisfies the hypothesis and errors. -/
theorem parseDNSName_pointer_chain_fails_witness :
    (∀ k < 10, isPtrAt [0xC0, 0] (ptrChain [0xC0, 0] k 0)) ∧
    parseDNSName [0xC0, 0] 0 = ([], -1) :=
  ⟨by decide, parseDNSName_pointer_chain_fails [0xC0, 0] 0 (by decide)⟩

/-- C1 counterexample to the claim as stated: a chain of exactly 10 jumps
(offset 0 jumps 2, 4, ..., 20, and offset 20 holds the terminating zero
label) does not exceed the maximum jump count of 10, yet parseDNSName
reports a decode error; starting one jump later (offset 2, 9 jumps) the
very same buffer parses successfully.  So chains that merely reach the
count of 10, not only chains exceeding it, fail. -/
theorem parseDNSName_ten_jump_chain_counterexample :
    ptrChain [0xC0, 2, 0xC0, 4, 0xC0, 6, 0xC0, 8, 0xC0, 10, 0xC0, 12,
      0xC0, 14, 0xC0, 16, 0xC0, 18, 0xC0, 20, 0] 10 0 = 20 ∧
    List.getD [0xC0, 2, 0xC0, 4, 0xC0, 6, 0xC0, 8, 0xC0, 10, 0xC0, 12,
      0xC0, 14, 0xC0, 16, 0xC0, 18, 0xC0, 20, 0] 20 0 = 0 ∧
    parseDNSName [0xC0, 2, 0xC0, 4, 0xC0, 6, 0xC0, 8, 0xC0, 10, 0xC0, 12,
      0xC0, 14, 0xC0, 16, 0xC0, 18, 0xC0, 20, 0] 0 = ([], -1) ∧
    parseDNSName [0xC0, 2, 0xC0, 4, 0xC0, 6, 0xC0, 8, 0xC0, 10, 0xC0, 12,
      0xC0, 14, 0xC0, 16, 0xC0, 18, 0xC0, 20, 0] 2 = ([], 4) := by
  refine ⟨by decide, by decide, ?_, ?_⟩ <;> simp +decide [parseDNSName, parseLoop]

/-! ## C3: id assignment by Add -/

/-- C3 counterexample: starting from the empty store, add a record (it gets
id 1), delete it (the store is empty again), and add another record: the
new id is 2, not the 1 the claim demands for an empty store — the id of the
deleted highest record is not reused. -/
theorem add_after_delete_counterexample :
    (((Store.Delete (Store.Add ⟨[], 1⟩ ⟨0, [97], [65], [49]⟩).2 1).getD
        ⟨[], 1⟩).records = []) ∧
    (Store.Add ((Store.Delete (Store.Add ⟨[], 1⟩ ⟨0, [97], [65], [49]⟩).2 1).getD
        ⟨[], 1⟩) ⟨0, [97], [65], [49]⟩).1.id = 2 := by
  decide

/-- C3 (amended): Add assigns the stored record the id nextID — a counter
that load seeds with (maximum id among loaded records) + 1 and that each
Add increments — rather than recomputing max existing id + 1 from the live
records; Delete leaves the counter unchanged, so after deleting the record
with the highest id the next Add does not reuse that id within the same
process. -/
theorem add_assigns_counter_id (s : Store) (r : Record) (i : Int) :
    (Store.Add s r).1.id = s.nextID ∧
    (Store.Add s r).2.nextID = s.nextID + 1 ∧
    ((Store.Delete s i).getD s).nextID = s.nextID := by
  refine ⟨rfl, rfl, ?_⟩
  unfold Store.Delete
  cases deleteRecords s.records i <;> simp

/-! ## C5: Resolve authoritativeness -/

theorem indexLookup_eq_nil_iff (records : List Record) (key : List Nat) :
    indexLookup records key = [] ↔ ¬ ∃ r ∈ records, goToLower r.domain = key := by
  simp [indexLookup, List.filter_eq_nil_iff]

/-- C5: Resolve does a case-insensitive domain lookup; it answers
not-authoritative with an empty record list exactly when the store holds no
record for the queried domain, and authoritative whenever it holds at least
one, whatever the queried type is. -/
theorem resolve_authoritative_iff (s : Store) (domain : List Nat) (qtype : Nat) :
    ((Store.Resolve s domain qtype).2 = true ↔
      ∃ r ∈ s.records, goToLower r.domain = goToLower domain) ∧
    (((Store.Resolve s domain qtype).2 = false ∧
        (Store.Resolve s domain qtype).1 = []) ↔
      ¬ ∃ r ∈ s.records, goToLower r.domain = goToLower domain) := by
  have hkey := indexLookup_eq_nil_iff s.records (goToLower domain)
  unfold Store.Resolve
  by_cases h : indexLookup s.records (goToLower domain) = []
  · simp [h, hkey.mp h]
  · have he : ∃ r ∈ s.records, goToLower r.domain = goToLower domain := by
      by_contra hno
      exact h (hkey.mpr hno)
    have hlen : ¬ (indexLookup s.records (goToLower domain)).length = 0 := by
      simpa [List.length_eq_zero] using h
    by_cases hq : qtype = 255 <;> simp [hq, hlen, he]

/-! ## C10: buildServFail header flags -/

/-- C10: buildServFail sets the QR bit, copies the RD bit from the query,
sets the RA bit, sets RCODE 2, leaves the AA bit clear (unlike
buildDNSResponse, which sets it), and fixes QDCOUNT to 1. -/
theorem servfail_header_flags (query : List Nat) (questionEnd : Nat)
    (records : List Record) :
    ((buildServFail query questionEnd).getD 2 0) &&& 0x80 = 0x80 ∧
    ((buildServFail query questionEnd).getD 2 0) &&& 0x04 = 0 ∧
    ((buildServFail query questionEnd).getD 2 0) &&& 0x01 =
      (query.getD 2 0) &&& 0x01 ∧
    ((buildServFail query questionEnd).getD 3 0) &&& 0x80 = 0x80 ∧
    ((buildServFail query questionEnd).getD 3 0) &&& 0x0F = 2 ∧
    (buildServFail query questionEnd).getD 4 0 = 0 ∧
    (buildServFail query questionEnd).getD 5 0 = 1 ∧
    ((buildDNSResponse query questionEnd records).getD 2 0) &&& 0x04 = 0x04 := by
  have e2 : (buildServFail query questionEnd).getD 2 0
      = 0x80 ||| ((query.getD 2 0) &&& 0x01) := rfl
  have e3 : (buildServFail query questionEnd).getD 3 0 = 0x82 := rfl
  have e4 : (buildServFail query questionEnd).getD 4 0 = 0 := rfl
  have e5 : (buildServFail query questionEnd).getD 5 0 = 1 := rfl
  have f2 : (buildDNSResponse query questionEnd records).getD 2 0
      = 0x84 ||| ((query.getD 2 0) &&& 0x01) := rfl
  rw [e2, e3, e4, e5, f2]
  simp only [Nat.and_one_is_mod]
  rcases Nat.mod_two_eq_zero_or_one (query.getD 2 0) with h2 | h2 <;>
    rw [h2] <;> decide

/-! ## C6: CNAME fallback -/

/-- C6: for a non-ANY query (the ANY code 255 bypasses type filtering and
returns every record), when the type-filtered result for the queried type
is empty but the domain holds a CNAME record, Resolve returns exactly the
first CNAME record, authoritatively; and for a domain holding only a CNAME
record, an A query (1) returns it via the fallback while a CNAME query (5)
returns the same record via the direct type match. -/
theorem resolve_cname_fallback :
    (∀ (s : Store) (domain : List Nat) (qtype : Nat) (c : Record),
      qtype ≠ 255 →
      (indexLookup s.records (goToLower domain)).filter
        (fun r => matchType r.rtype qtype) = [] →
      (indexLookup s.records (goToLower domain)).find?
        (fun r => r.rtype == typeCNAME) = some c →
      Store.Resolve s domain qtype = ([c], true)) ∧
    (∀ (s : Store) (domain : List Nat) (c : Record),
      indexLookup s.records (goToLower domain) = [c] →
      c.rtype = typeCNAME →
      Store.Resolve s domain 1 = ([c], true) ∧
        Store.Resolve s domain 5 = ([c], true)) := by
  constructor
  · intro s domain qtype c hq hempty hfind
    have hne : ¬ (indexLookup s.records (goToLower domain)).length = 0 := by
      intro h
      rw [List.length_eq_zero] at h
      rw [h] at hfind
      simp at hfind
    unfold Store.Resolve
    simp [hne, hq, hempty, hfind]
  · intro s domain c hall hc
    constructor <;>
      · unfold Store.Resolve
        simp [hall, hc, matchType, typeCNAME, typeA]

/-- C6 witness: a store holding only the CNAME record (id 1, domain "a",
value "t"): an AAAA query (28) and an A query (1) hit the fallback, a CNAME
query (5) the direct match. -/
theorem resolve_cname_fallback_witness :
    Store.Resolve ⟨[⟨1, [97], typeCNAME, [116]⟩], 2⟩ [97] 28
      = ([⟨1, [97], typeCNAME, [116]⟩], true) ∧
    Store.Resolve ⟨[⟨1, [97], typeCNAME, [116]⟩], 2⟩ [97] 1
      = ([⟨1, [97], typeCNAME, [116]⟩], true) ∧
    Store.Resolve ⟨[⟨1, [97], typeCNAME, [116]⟩], 2⟩ [97] 5
      = ([⟨1, [97], typeCNAME, [116]⟩], true) :=
  ⟨resolve_cname_fallback.1 ⟨[⟨1, [97], typeCNAME, [116]⟩], 2⟩ [97] 28
      ⟨1, [97], typeCNAME, [116]⟩ (by decide) (by decide) (by decide),
   (resolve_cname_fallback.2 ⟨[⟨1, [97], typeCNAME, [116]⟩], 2⟩ [97]
      ⟨1, [97], typeCNAME, [116]⟩ (by decide) (by decide)).1,
   (resolve_cname_fallback.2 ⟨[⟨1, [97], typeCNAME, [116]⟩], 2⟩ [97]
      ⟨1, [97], typeCNAME, [116]⟩ (by decide) (by decide)).2⟩

/-! ## C9: per-datagram validation in handleQuery -/

/-- C9: the dispatcher silently drops (no response) any datagram shorter
than 12 bytes, any datagram with the QR bit set, and any datagram with
question count 0; a datagram passing all three checks proceeds to name
parsing and resolution, and — when the name parses and the question fits in
the buffer — always produces some response (an authoritative answer, the
upstream response, or a SERVFAIL). -/
theorem handle_query_validation (s : Store) (buf : List Nat)
    (up : Option (List Nat)) :
    (buf.length < 12 → handleQuery s buf up = none) ∧
    ((buf.getD 2 0) &&& 0x80 ≠ 0 → handleQuery s buf up = none) ∧
    ((buf.getD 4 0) <<< 8 ||| buf.getD 5 0 = 0 → handleQuery s buf up = none) ∧
    (¬ buf.length < 12 → (buf.getD 2 0) &&& 0x80 = 0 →
      (buf.getD 4 0) <<< 8 ||| buf.getD 5 0 ≠ 0 →
      0 ≤ (parseDNSName buf 12).2 →
      (parseDNSName buf 12).2.toNat + 4 ≤ buf.length →
      handleQuery s buf up ≠ none) := by
  refine ⟨?_, ?_, ?_, ?_⟩ <;> unfold handleQuery
  · intro h
    simp [h]
  · intro h
    simp only [List.getD_eq_getElem?_getD] at h
    by_cases hl : buf.length < 12 <;> simp [hl, h]
  · intro h
    simp only [List.getD_eq_getElem?_getD] at h
    by_cases hl : buf.length < 12
    · simp [hl]
    · by_cases h8 : (buf[2]?.getD 0) &&& 0x80 = 0 <;> simp [hl, h8, h]
  · intro h1 h2 h3 h4 h5
    have hok : ¬ ((parseDNSName buf 12).2 < 0 ∨
        buf.length < (parseDNSName buf 12).2.toNat + 4) := by
      push_neg
      exact ⟨by omega, by omega⟩
    simp only [h1, h2, h3, hok, ne_eq, eq_self_iff_true, not_true_eq_false,
      not_false_eq_true, ite_false, ite_true, if_false, if_true]
    split
    · simp
    · split <;> simp

/-- C9 witness: an 1-byte datagram, a 12-byte datagram with the QR bit set,
a 12-byte datagram with question count 0 (all dropped), and a well-formed
query for name "a", type A against the empty store with no upstream
response (answered, with a SERVFAIL). -/
theorem handle_query_validation_witness :
    handleQuery ⟨[], 1⟩ [0] none = none ∧
    handleQuery ⟨[], 1⟩ [0, 0, 0x80, 0, 0, 1, 0, 0, 0, 0, 0, 0] none = none ∧
    handleQuery ⟨[], 1⟩ [0, 0, 0, 0, 0, 0, 0, 0, 0, 0, 0, 0] none = none ∧
    handleQuery ⟨[], 1⟩
      [0, 0, 0, 0, 0, 1, 0, 0, 0, 0, 0, 0, 1, 97, 0, 0, 1, 0, 1] none ≠ none :=
  ⟨(handle_query_validation ⟨[], 1⟩ [0] none).1 (by decide),
   (handle_query_validation ⟨[], 1⟩
      [0, 0, 0x80, 0, 0, 1, 0, 0, 0, 0, 0, 0] none).2.1 (by decide),
   (handle_query_validation ⟨[], 1⟩
      [0, 0, 0, 0, 0, 0, 0, 0, 0, 0, 0, 0] none).2.2.1 (by decide),
   (handle_query_validation ⟨[], 1⟩
      [0, 0, 0, 0, 0, 1, 0, 0, 0, 0, 0, 0, 1, 97, 0, 0, 1, 0, 1] none).2.2.2
     (by decide) (by decide) (by decide)
     (by simp +decide [parseDNSName, parseLoop])
     (by simp +decide [parseDNSName, parseLoop])⟩

/-! ## C7: buildDNSResponse skip policy and answer count -/

/-- The answer-count component of the buildDNSResponse fold: the uint16
counter counts exactly the records whose recordRR is some. -/
theorem respFold_snd (records : List Record) :
    ∀ (a : List Nat) (n : Nat), n < 65536 →
      ((records.foldl (fun (acc : List Nat × Nat) r =>
        match recordRR r with
        | none => acc
        | some (rt, rdata) =>
            (acc.1 ++ [0xC0, 0x0C, (rt >>> 8) % 256, rt % 256, 0, 1, 0, 0, 0, 60,
              (rdata.length >>> 8) % 256, rdata.length % 256] ++ rdata,
             (acc.2 + 1) % 65536)) (a, n)).2)
      = (n + records.countP fun r => (recordRR r).isSome) % 65536 := by
  induction records with
  | nil =>
      intro a n hn
      simp [Nat.mod_eq_of_lt hn]
  | cons r rest ih =>
      intro a n hn
      cases hrr : recordRR r with
      | none =>
          simp only [List.foldl_cons, hrr]
          rw [ih a n hn, List.countP_cons]
          simp [hrr]
      | some v =>
          obtain ⟨rt, rdata⟩ := v
          simp only [List.foldl_cons, hrr]
          rw [ih _ ((n + 1) % 65536) (Nat.mod_lt _ (by norm_num)),
            List.countP_cons]
          simp only [hrr, Option.isSome_some, if_pos]
          omega

/-- When every record is skipped, the buildDNSResponse fold is the
identity on the accumulator. -/
theorem respFold_all_skip (records : List Record)
    (h : ∀ r ∈ records, recordRR r = none) (a : List Nat) (n : Nat) :
    records.foldl (fun (acc : List Nat × Nat) r =>
        match recordRR r with
        | none => acc
        | some (rt, rdata) =>
            (acc.1 ++ [0xC0, 0x0C, (rt >>> 8) % 256, rt % 256, 0, 1, 0, 0, 0, 60,
              (rdata.length >>> 8) % 256, rdata.length % 256] ++ rdata,
             (acc.2 + 1) % 65536)) (a, n) = (a, n) := by
  induction records generalizing a n with
  | nil => rfl
  | cons r rest ih =>
      have hr := h r (by simp)
      simp only [List.foldl_cons, hr]
      exact ih (fun x hx => h x (by simp [hx])) a n

/-- C7: buildDNSResponse silently skips records whose value does not parse
as the record type's address family — for A records exactly when
ParseIP(value).To4() is nil, for AAAA records an answer is emitted exactly
when ParseIP succeeds and To4 is nil —; the ANCOUNT field holds the number
of answers actually emitted after skipping; and when every record is
skipped the response is exactly questionEnd bytes long (header plus
question only). -/
theorem build_response_skip_policy (query : List Nat) (questionEnd : Nat)
    (records : List Record) (r : Record) :
    (records.length < 65536 →
      ((buildDNSResponse query questionEnd records).getD 6 0) * 256 +
        (buildDNSResponse query questionEnd records).getD 7 0 =
        records.countP fun x => (recordRR x).isSome) ∧
    ((∀ x ∈ records, recordRR x = none) → 12 ≤ questionEnd →
      questionEnd ≤ query.length →
      (buildDNSResponse query questionEnd records).length = questionEnd) ∧
    (r.rtype = typeA →
      (recordRR r = none ↔ (goParseIP r.value).bind goTo4 = none)) ∧
    (r.rtype = typeAAAA →
      (recordRR r).isSome =
        ((goParseIP r.value).isSome && !((goParseIP r.value).bind goTo4).isSome)) := by
  refine ⟨?_, ?_, ?_, ?_⟩
  · intro hlen
    have e6 : (buildDNSResponse query questionEnd records).getD 6 0 =
        (((records.foldl (fun (acc : List Nat × Nat) x =>
          match recordRR x with
          | none => acc
          | some (rt, rdata) =>
              (acc.1 ++ [0xC0, 0x0C, (rt >>> 8) % 256, rt % 256, 0, 1, 0, 0, 0, 60,
                (rdata.length >>> 8) % 256, rdata.length % 256] ++ rdata,
               (acc.2 + 1) % 65536)) ([], 0)).2) >>> 8) % 256 := rfl
    have e7 : (buildDNSResponse query questionEnd records).getD 7 0 =
        ((records.foldl (fun (acc : List Nat × Nat) x =>
          match recordRR x with
          | none => acc
          | some (rt, rdata) =>
              (acc.1 ++ [0xC0, 0x0C, (rt >>> 8) % 256, rt % 256, 0, 1, 0, 0, 0, 60,
                (rdata.length >>> 8) % 256, rdata.length % 256] ++ rdata,
               (acc.2 + 1) % 65536)) ([], 0)).2) % 256 := rfl
    rw [e6, e7, respFold_snd records [] 0 (by norm_num)]
    have hcle : (records.countP fun x => (recordRR x).isSome) ≤ records.length :=
      List.countP_le_length _
    rw [Nat.shiftRight_eq_div_pow]
    norm_num
    omega
  · intro hskip h12 hqe
    unfold buildDNSResponse
    rw [respFold_all_skip records hskip [] 0]
    simp only [List.length_append, List.length_cons, List.length_nil,
      List.length_take, List.length_drop]
    omega
  · intro hA
    unfold recordRR
    rw [hA]
    simp only [if_pos rfl]
    cases hp : (goParseIP r.value).bind goTo4 with
    | none => simp [hp]
    | some ip4 => simp [hp]
  · intro hAAAA
    unfold recordRR
    rw [hAAAA]
    have hne : ¬ (typeAAAA = typeA) := by decide
    rw [if_neg hne, if_pos rfl]
    cases hp : goParseIP r.value with
    | none => simp [hp]
    | some ip =>
        by_cases hg : (goTo4 ip).isSome <;> simp [hp, hg]

/-- A well-formed query for name "a", type A (19 bytes: header, question). -/
def exampleQuery : List Nat :=
  [0, 0, 0, 0, 0, 1, 0, 0, 0, 0, 0, 0, 1, 97, 0, 0, 1, 0, 1]

/-- An A record whose value "not-an-ip" does not parse as an address. -/
def exampleBadA : Record :=
  ⟨1, [97], typeA, [110, 111, 116, 45, 97, 110, 45, 105, 112]⟩

/-- An AAAA record whose value "1" does not parse as an address. -/
def exampleBadAAAA : Record := ⟨1, [97], typeAAAA, [49]⟩

/-- C7 witness: with the single unparsable A record every answer is
skipped: ANCOUNT is 0 (the countP evaluates to 0), the response is exactly
questionEnd = 19 bytes, and the family conditions hold for the concrete A
and AAAA records. -/
theorem build_response_skip_policy_witness :
    (buildDNSResponse exampleQuery 19 [exampleBadA]).getD 6 0 * 256 +
      (buildDNSResponse exampleQuery 19 [exampleBadA]).getD 7 0 =
      [exampleBadA].countP (fun x => (recordRR x).isSome) ∧
    (buildDNSResponse exampleQuery 19 [exampleBadA]).length = 19 ∧
    (recordRR exampleBadA = none ↔ (goParseIP exampleBadA.value).bind goTo4 = none) ∧
    (recordRR exampleBadAAAA).isSome =
      ((goParseIP exampleBadAAAA.value).isSome &&
        !((goParseIP exampleBadAAAA.value).bind goTo4).isSome) :=
  ⟨(build_response_skip_policy exampleQuery 19 [exampleBadA] exampleBadA).1
      (by decide),
   (build_response_skip_policy exampleQuery 19 [exampleBadA] exampleBadA).2.1
      (by decide) (by decide) (by decide),
   (build_response_skip_policy exampleQuery 19 [exampleBadA] exampleBadA).2.2.1
      rfl,
   (build_response_skip_policy exampleQuery 19 [exampleBadAAAA]
      exampleBadAAAA).2.2.2 rfl⟩

/-! ## C2: decode of encode round trip -/

/-- The wire bytes of a label sequence: each label length-prefixed. -/
def encLabels (ls : List (List Nat)) : List Nat :=
  (ls.map fun l => (l.length % 256) :: l).flatten

theorem getD_append_cons (pre suf : List Nat) (a d : Nat) :
    (pre ++ a :: suf).getD pre.length d = a := by
  rw [List.getD_eq_getElem?_getD, List.getElem?_append_right (le_refl pre.length)]
  simp

/-- The encodeDNSName fold over non-empty parts appends their wire bytes. -/
theorem foldl_encode (parts : List (List Nat)) (h : ∀ p ∈ parts, p ≠ []) :
    ∀ acc : List Nat,
      parts.foldl (fun buf part =>
        if part.length = 0 then buf else buf ++ (part.length % 256) :: part) acc
      = acc ++ encLabels parts := by
  induction parts with
  | nil =>
      intro acc
      simp [encLabels]
  | cons p rest ih =>
      intro acc
      have hp : ¬ p.length = 0 := by
        have hne := h p (by simp)
        simp [List.length_eq_zero, hne]
      simp only [List.foldl_cons, hp, if_neg, ite_false]
      rw [ih (fun x hx => h x (by simp [hx])) (acc ++ p.length % 256 :: p)]
      simp [encLabels]

/-- Encoding a name assembled from dot-free non-empty labels yields the
length-prefixed labels followed by the zero terminator. -/
theorem encode_intercalate (labels : List (List Nat))
    (h : ∀ l ∈ labels, l ≠ [] ∧ 46 ∉ l) :
    encodeDNSName (List.intercalate [46] labels) = encLabels labels ++ [0] := by
  cases labels with
  | nil => decide
  | cons l rest =>
      unfold encodeDNSName
      rw [List.splitOn_intercalate (l :: rest) 46 (fun x hx => (h x hx).2)
        (by simp)]
      rw [foldl_encode (l :: rest) (fun x hx => (h x hx).1) []]
      simp

/-- The parse loop consumes the wire bytes of 1-to-63-byte labels placed
after an arbitrary prefix, never jumping, and stops at the zero terminator
with the offset just past it. -/
theorem parseLoop_encLabels (ls : List (List Nat))
    (h : ∀ l ∈ ls, 1 ≤ l.length ∧ l.length ≤ 63) :
    ∀ (pre : List Nat) (acc : List (List Nat)) (ro mj : Nat), mj ≠ 0 →
      parseLoop (pre ++ (encLabels ls ++ [0])) pre.length acc false ro mj
        = some (acc ++ ls, pre.length + (encLabels ls).length + 1) := by
  induction ls with
  | nil =>
      intro pre acc ro mj hmj
      have hg : (pre ++ (encLabels [] ++ [0])).getD pre.length 0 = 0 := by
        have hc := getD_append_cons pre [] 0 0
        simp only [encLabels, List.map_nil, List.flatten_nil, List.nil_append]
        exact hc
      have hb : ¬ (pre ++ (encLabels [] ++ [0])).length ≤ pre.length := by
        simp [encLabels]
      rw [parseLoop.eq_def]
      simp [hmj, hb, hg, encLabels]
  | cons l rest ih =>
      intro pre acc ro mj hmj
      obtain ⟨hl1, hl63⟩ := h l (by simp)
      have hmod : l.length % 256 = l.length := Nat.mod_eq_of_lt (by omega)
      have hsplit : pre ++ (encLabels (l :: rest) ++ [0])
          = pre ++ l.length % 256 :: (l ++ (encLabels rest ++ [0])) := by
        simp [encLabels]
      have hg : (pre ++ (encLabels (l :: rest) ++ [0])).getD pre.length 0
          = l.length := by
        rw [hsplit]
        rw [getD_append_cons pre (l ++ (encLabels rest ++ [0])) (l.length % 256) 0]
        exact hmod
      have hb : ¬ (pre ++ (encLabels (l :: rest) ++ [0])).length ≤ pre.length := by
        simp [encLabels]
      have hnz : ¬ l.length = 0 := by omega
      have hptr : ¬ l.length &&& 0xC0 = 0xC0 := by
        have hle : l.length &&& 0xC0 ≤ l.length := Nat.and_le_left
        omega
      have hlen : ¬ (pre ++ (encLabels (l :: rest) ++ [0])).length <
          pre.length + 1 + l.length := by
        simp [encLabels]
        omega
      have hdrop : ((pre ++ (encLabels (l :: rest) ++ [0])).drop
          (pre.length + 1)).take l.length = l := by
        rw [hsplit]
        have e1 : pre ++ l.length % 256 :: (l ++ (encLabels rest ++ [0]))
            = (pre ++ [l.length % 256]) ++ (l ++ (encLabels rest ++ [0])) := by
          simp
        rw [e1]
        have e2 : pre.length + 1 = (pre ++ [l.length % 256]).length := by
          simp
        rw [e2, List.drop_left, List.take_left]
      rw [parseLoop.eq_def]
      simp only [hmj, hb, hg, hnz, hptr, hlen, ite_false, if_neg, dite_false,
        dif_neg, not_false_eq_true, if_false]
      rw [hdrop]
      have hrec := ih (fun x hx => h x (by simp [hx]))
        (pre ++ l.length % 256 :: l) (acc ++ [l]) ro mj hmj
      have e3 : (pre ++ l.length % 256 :: l) ++ (encLabels rest ++ [0])
          = pre ++ (encLabels (l :: rest) ++ [0]) := by
        simp [encLabels]
      have e4 : (pre ++ l.length % 256 :: l).length = pre.length + 1 + l.length := by
        simp [hmod]
        omega
      rw [e3, e4] at hrec
      rw [hrec]
      simp [encLabels, hmod]
      omega

/-- C2: for every name composed of 1-to-63-byte labels (labels contain no
dot byte) joined by single dots, decoding the encoding at offset 0 returns
the original name and the length of the encoding as the next offset. -/
theorem decode_encode_roundtrip (labels : List (List Nat))
    (h : ∀ l ∈ labels, (1 ≤ l.length ∧ l.length ≤ 63) ∧ 46 ∉ l) :
    parseDNSName (encodeDNSName (List.intercalate [46] labels)) 0
      = (List.intercalate [46] labels,
         ((encodeDNSName (List.intercalate [46] labels)).length : Int)) := by
  have henc : encodeDNSName (List.intercalate [46] labels)
      = encLabels labels ++ [0] :=
    encode_intercalate labels
      (fun l hl => ⟨by have hh := (h l hl).1.1; intro he; rw [he] at hh; simp at hh,
        (h l hl).2⟩)
  rw [henc]
  unfold parseDNSName
  have hp := parseLoop_encLabels labels (fun l hl => (h l hl).1) [] [] 0 10
    (by norm_num)
  simp only [List.nil_append, List.length_nil, Nat.zero_add] at hp
  rw [hp]
  simp

/-- C2 witness: the name "app.my.local" (labels of lengths 3, 2, 5). -/
theorem decode_encode_roundtrip_witness :
    parseDNSName (encodeDNSName (List.intercalate [46]
      [[97, 112, 112], [109, 121], [108, 111, 99, 97, 108]])) 0
      = (List.intercalate [46] [[97, 112, 112], [109, 121], [108, 111, 99, 97, 108]],
         ((encodeDNSName (List.intercalate [46]
           [[97, 112, 112], [109, 121], [108, 111, 99, 97, 108]])).length : Int)) :=
  decode_encode_roundtrip [[97, 112, 112], [109, 121], [108, 111, 99, 97, 108]]
    (by decide)

/-! ## C4: case normalization -/

theorem goToUpper_idem (s : List Nat) : goToUpper (goToUpper s) = goToUpper s := by
  unfold goToUpper
  rw [List.map_map]
  apply List.map_congr_left
  intro c _
  simp only [Function.comp]
  by_cases h : 97 ≤ c ∧ c ≤ 122
  · rw [if_pos h, if_neg (by omega)]
  · rw [if_neg h, if_neg h]

theorem parseStoreLine_type (line : List Nat) (r : Record)
    (h : parseStoreLine line = some r) :
    r.rtype = typeA ∨ r.rtype = typeAAAA ∨ r.rtype = typeCNAME := by
  unfold parseStoreLine at h
  dsimp only at h
  split at h
  · exact Option.noConfusion h
  · split at h
    · split at h
      · exact Option.noConfusion h
      · split at h
        · cases h
          assumption
        · exact Option.noConfusion h
    · exact Option.noConfusion h

theorem loadStore_types (data : List Nat) :
    ∀ r ∈ (loadStore data).records,
      r.rtype = typeA ∨ r.rtype = typeAAAA ∨ r.rtype = typeCNAME := by
  unfold loadStore
  by_cases hd : data = []
  · simp [hd]
  · rw [if_neg hd]
    have key : ∀ (lines : List (List Nat)) (acc : List Record × Int),
        (∀ r ∈ acc.1, r.rtype = typeA ∨ r.rtype = typeAAAA ∨ r.rtype = typeCNAME) →
        ∀ r ∈ (lines.foldl
          (fun (acc : List Record × Int) line =>
            match parseStoreLine line with
            | none => acc
            | some r => (acc.1 ++ [r], if acc.2 < r.id then r.id else acc.2))
          acc).1,
          r.rtype = typeA ∨ r.rtype = typeAAAA ∨ r.rtype = typeCNAME := by
      intro lines
      induction lines with
      | nil => intro acc hacc; exact hacc
      | cons line rest ih =>
          intro acc hacc
          simp only [List.foldl_cons]
          cases hp : parseStoreLine line with
          | none => exact ih acc hacc
          | some r =>
              apply ih
              intro x hx
              rcases List.mem_append.mp hx with hx | hx
              · exact hacc x hx
              · rcases List.mem_singleton.mp hx with rfl
                exact parseStoreLine_type line x hp
    intro r hr
    exact key _ ([], 0) (by simp) r hr

theorem updateRecords_spec (recs : List Record) (i : Int) (d t v : List Nat) :
    ∀ p, updateRecords recs i d t v = some p →
      p.1.domain = goToLower d ∧ p.1.rtype = goToUpper t ∧
      p.1 ∈ p.2 ∧ ∀ x ∈ p.2, x ∈ recs ∨ x = p.1 := by
  induction recs with
  | nil =>
      intro p hp
      exact Option.noConfusion hp
  | cons r rest ih =>
      intro p hp
      unfold updateRecords at hp
      by_cases hid : r.id = i
      · rw [if_pos hid] at hp
        cases hp
        refine ⟨rfl, rfl, by simp, ?_⟩
        intro x hx
        rcases List.mem_cons.mp hx with rfl | hx
        · right; rfl
        · left; exact List.mem_cons_of_mem r hx
      · rw [if_neg hid] at hp
        cases hu : updateRecords rest i d t v with
        | none => rw [hu] at hp; exact Option.noConfusion hp
        | some q =>
            rw [hu] at hp
            simp only [Option.map_some'] at hp
            cases hp
            obtain ⟨h1, h2, h3, h4⟩ := ih q hu
            refine ⟨h1, h2, List.mem_cons_of_mem r h3, ?_⟩
            intro x hx
            rcases List.mem_cons.mp hx with rfl | hx
            · left; exact List.mem_cons_self x rest
            · rcases h4 x hx with hx2 | hx2
              · left; exact List.mem_cons_of_mem r hx2
              · right; exact hx2

theorem deleteRecords_subset (recs : List Record) (i : Int) :
    ∀ l, deleteRecords recs i = some l → ∀ x ∈ l, x ∈ recs := by
  induction recs with
  | nil =>
      intro l hl
      exact Option.noConfusion hl
  | cons r rest ih =>
      intro l hl
      unfold deleteRecords at hl
      by_cases hid : r.id = i
      · rw [if_pos hid] at hl
        cases hl
        intro x hx
        exact List.mem_cons_of_mem r hx
      · rw [if_neg hid] at hl
        cases hdr : deleteRecords rest i with
        | none => rw [hdr] at hl; exact Option.noConfusion hl
        | some l2 =>
            rw [hdr] at hl
            simp only [Option.map_some'] at hl
            cases hl
            intro x hx
            rcases List.mem_cons.mp hx with rfl | hx
            · exact List.mem_cons_self x rest
            · exact List.mem_cons_of_mem r (ih l2 hdr x hx)

/-- Store states reachable through the public store operations: constructed
from a backing file (or a missing one), then mutated by Add, Update and
Delete. -/
inductive Reachable : Store → Prop where
  | load (data : List Nat) : Reachable (loadStore data)
  | add (s : Store) (r : Record) : Reachable s → Reachable (Store.Add s r).2
  | update (s : Store) (i : Int) (d t v : List Nat) (p : Record × Store) :
      Reachable s → Store.Update s i d t v = some p → Reachable p.2
  | remove (s : Store) (i : Int) (s2 : Store) :
      Reachable s → Store.Delete s i = some s2 → Reachable s2

/-- Every store reachable through load/Add/Update/Delete holds only records
whose type is fixed by upper-casing (load admits only the three upper-case
type literals; Add and Update store an upper-cased type). -/
theorem reachable_types_upper (s : Store) (hs : Reachable s) :
    ∀ r ∈ s.records, r.rtype = goToUpper r.rtype := by
  induction hs with
  | load data =>
      intro r hr
      rcases loadStore_types data r hr with h | h | h <;> rw [h] <;> decide
  | add s r hs ih =>
      intro x hx
      simp only [Store.Add] at hx
      rcases List.mem_append.mp hx with hx | hx
      · exact ih x hx
      · rcases List.mem_singleton.mp hx with rfl
        exact (goToUpper_idem r.rtype).symm
  | update s i d t v p hs hp ih =>
      intro x hx
      obtain ⟨q, hq, hfq⟩ := Option.map_eq_some'.mp hp
      obtain ⟨hd, ht2, hmem, hall⟩ := updateRecords_spec s.records i d t v q hq
      have hrecs : p.2.records = q.2 := by rw [← hfq]
      rw [hrecs] at hx
      rcases hall x hx with hx2 | hx2
      · exact ih x hx2
      · rw [hx2, ht2]
        exact (goToUpper_idem t).symm
  | remove s i s2 hs hdel ih =>
      intro x hx
      obtain ⟨l, hl, hfl⟩ := Option.map_eq_some'.mp hdel
      have hrecs : s2.records = l := by rw [← hfl]
      rw [hrecs] at hx
      exact ih x (deleteRecords_subset s.records i l hl x hx)

/-- C4 (amended): Add and Update store the domain lower-cased and the type
upper-cased, and every reachable store state holds only records with
upper-case-normalized types; but load keeps the domain bytes of the backing
file verbatim, so a record loaded from a hand-edited file may carry a
non-lower-case domain (lookups stay case-insensitive regardless). -/
theorem store_normalization :
    (∀ s, Reachable s → ∀ r ∈ s.records, r.rtype = goToUpper r.rtype) ∧
    (∀ (s : Store) (r : Record),
      (Store.Add s r).1.domain = goToLower r.domain ∧
      (Store.Add s r).1.rtype = goToUpper r.rtype ∧
      (Store.Add s r).2.records = s.records ++ [(Store.Add s r).1]) ∧
    (∀ (s : Store) (i : Int) (d t v : List Nat) (p : Record × Store),
      Store.Update s i d t v = some p →
      p.1.domain = goToLower d ∧ p.1.rtype = goToUpper t ∧
        p.1 ∈ p.2.records) ∧
    (∀ (data : List Nat) (r : Record), r ∈ (loadStore data).records →
      r.rtype = typeA ∨ r.rtype = typeAAAA ∨ r.rtype = typeCNAME) := by
  refine ⟨reachable_types_upper, fun s r => ⟨rfl, rfl, rfl⟩, ?_, loadStore_types⟩
  intro s i d t v p hp
  obtain ⟨q, hq, hfq⟩ := Option.map_eq_some'.mp hp
  obtain ⟨hd, ht2, hmem, _⟩ := updateRecords_spec s.records i d t v q hq
  have h1 : p.1 = q.1 := by rw [← hfq]
  have h2 : p.2.records = q.2 := by rw [← hfq]
  rw [h1, h2]
  exact ⟨hd, ht2, hmem⟩

/-- C4 counterexample: loading the file line "1 TAB APP.LOCAL TAB A TAB
1.2.3.4" stores the record with domain APP.LOCAL verbatim, which is not
lower case — the normalization invariant does not hold for records loaded
from the backing file. -/
theorem load_preserves_domain_case_counterexample :
    (loadStore [49, 9, 65, 80, 80, 46, 76, 79, 67, 65, 76, 9, 65, 9,
        49, 46, 50, 46, 51, 46, 52, 10]).records.map (fun r => r.domain)
      = [[65, 80, 80, 46, 76, 79, 67, 65, 76]] ∧
    goToLower [65, 80, 80, 46, 76, 79, 67, 65, 76]
      ≠ [65, 80, 80, 46, 76, 79, 67, 65, 76] := by
  decide

/-- C4 witness: a loaded record (file "1 TAB a TAB A TAB v") has an
upper-case-normalized type; Add and Update normalize concrete mixed-case
inputs. -/
theorem store_normalization_witness :
    ((⟨1, [97], typeA, [118]⟩ : Record).rtype
      = goToUpper (⟨1, [97], typeA, [118]⟩ : Record).rtype) ∧
    ((Store.Add ⟨[], 1⟩ ⟨0, [65], [97], [120]⟩).1.domain
        = goToLower [65] ∧
      (Store.Add ⟨[], 1⟩ ⟨0, [65], [97], [120]⟩).1.rtype
        = goToUpper [97] ∧
      (Store.Add ⟨[], 1⟩ ⟨0, [65], [97], [120]⟩).2.records
        = [] ++ [(Store.Add ⟨[], 1⟩ ⟨0, [65], [97], [120]⟩).1]) ∧
    (((⟨1, [98], [65], [120]⟩ : Record),
        (⟨[⟨1, [98], [65], [120]⟩], 2⟩ : Store)).1.domain = goToLower [66] ∧
      ((⟨1, [98], [65], [120]⟩ : Record),
        (⟨[⟨1, [98], [65], [120]⟩], 2⟩ : Store)).1.rtype = goToUpper [97] ∧
      ((⟨1, [98], [65], [120]⟩ : Record),
        (⟨[⟨1, [98], [65], [120]⟩], 2⟩ : Store)).1 ∈
        ((⟨1, [98], [65], [120]⟩ : Record),
          (⟨[⟨1, [98], [65], [120]⟩], 2⟩ : Store)).2.records) ∧
    ((⟨1, [97], typeA, [118]⟩ : Record).rtype = typeA ∨
      (⟨1, [97], typeA, [118]⟩ : Record).rtype = typeAAAA ∨
      (⟨1, [97], typeA, [118]⟩ : Record).rtype = typeCNAME) :=
  ⟨store_normalization.1 (loadStore [49, 9, 97, 9, 65, 9, 118, 10])
      (Reachable.load [49, 9, 97, 9, 65, 9, 118, 10])
      ⟨1, [97], typeA, [118]⟩ (by decide),
   store_normalization.2.1 ⟨[], 1⟩ ⟨0, [65], [97], [120]⟩,
   store_normalization.2.2.1 ⟨[⟨1, [97], [65], [118]⟩], 2⟩ 1 [66] [97] [120]
      (⟨1, [98], [65], [120]⟩, ⟨[⟨1, [98], [65], [120]⟩], 2⟩) (by decide),
   store_normalization.2.2.2 [49, 9, 97, 9, 65, 9, 118, 10]
      ⟨1, [97], typeA, [118]⟩ (by decide)⟩

/-! ## C8: persistence round trip: decimal id serialization -/

theorem natToDigits_ne_nil (n : Nat) : natToDigits n ≠ [] := by
  unfold natToDigits
  split <;> simp

theorem natToDigits_mem (n : Nat) : ∀ c ∈ natToDigits n, 48 ≤ c ∧ c ≤ 57 := by
  induction n using Nat.strong_induction_on with
  | _ n ih =>
      unfold natToDigits
      split
      · next h =>
          intro c hc
          simp only [List.mem_singleton] at hc
          omega
      · next h =>
          intro c hc
          rcases List.mem_append.mp hc with hc | hc
          · exact ih (n / 10) (Nat.div_lt_self (by omega) (by norm_num)) c hc
          · simp only [List.mem_singleton] at hc
            have hm : n % 10 < 10 := Nat.mod_lt _ (by norm_num)
            omega

theorem natToDigits_val (n : Nat) :
    (natToDigits n).foldl (fun acc c => 10 * acc + (c - 48)) 0 = n := by
  induction n using Nat.strong_induction_on with
  | _ n ih =>
      unfold natToDigits
      split
      · next h =>
          simp
      · next h =>
          rw [List.foldl_append,
            ih (n / 10) (Nat.div_lt_self (by omega) (by norm_num))]
          simp only [List.foldl_cons, List.foldl_nil]
          omega

theorem digitsVal_natToDigits (n : Nat) : digitsVal (natToDigits n) = some n := by
  have hne := natToDigits_ne_nil n
  have hmem := natToDigits_mem n
  have hval := natToDigits_val n
  rcases hsh : natToDigits n with _ | ⟨c, rest⟩
  · exact absurd hsh hne
  · rw [hsh] at hmem hval
    have hred : digitsVal (c :: rest) =
        if (c :: rest).all (fun b => 48 ≤ b ∧ b ≤ 57) then
          some ((c :: rest).foldl (fun acc b => 10 * acc + (b - 48)) 0)
        else none := rfl
    rw [hred, if_pos, hval]
    rw [List.all_eq_true]
    intro x hx
    have hx2 := hmem x hx
    simp only [decide_eq_true_eq]
    omega

theorem goAtoi_digits (c : Nat) (rest : List Nat) (hc : 48 ≤ c) :
    goAtoi (c :: rest) = (digitsVal (c :: rest)).map fun m => (m : Int) := by
  have hred : goAtoi (c :: rest) =
      if c = 43 then (digitsVal rest).map fun m => (m : Int)
      else if c = 45 then (digitsVal rest).map fun m => -(m : Int)
      else (digitsVal (c :: rest)).map fun m => (m : Int) := rfl
  rw [hred, if_neg (by omega), if_neg (by omega)]

theorem goAtoi_goItoa (n : Int) : goAtoi (goItoa n) = some n := by
  unfold goItoa
  by_cases hn : n < 0
  · rw [if_pos hn]
    have hred : goAtoi (45 :: natToDigits (-n).toNat) =
        (digitsVal (natToDigits (-n).toNat)).map fun m => -(m : Int) := rfl
    rw [hred, digitsVal_natToDigits]
    have ht : (((-n).toNat : Int)) = -n := Int.toNat_of_nonneg (by omega)
    simp [ht]
  · rw [if_neg hn]
    have hne := natToDigits_ne_nil n.toNat
    have hmem := natToDigits_mem n.toNat
    rcases hsh : natToDigits n.toNat with _ | ⟨c, rest⟩
    · exact absurd hsh hne
    · have hc := hmem c (by rw [hsh]; simp)
      have hd : digitsVal (natToDigits n.toNat) = some n.toNat :=
        digitsVal_natToDigits _
      rw [hsh] at hd
      rw [goAtoi_digits c rest (by omega), hd]
      have ht : ((n.toNat : Int)) = n := Int.toNat_of_nonneg (by omega)
      simp [ht]

theorem goItoa_mem (n : Int) :
    ∀ c ∈ goItoa n, c = 45 ∨ (48 ≤ c ∧ c ≤ 57) := by
  unfold goItoa
  split
  · intro c hc
    rcases List.mem_cons.mp hc with rfl | hc
    · left; rfl
    · right; exact natToDigits_mem _ c hc
  · intro c hc
    right
    exact natToDigits_mem _ c hc

/-! ## C8: line assembly and splitting -/

theorem trimRightByte_eq_self (c : Nat) (l : List Nat)
    (h : l.getLast? ≠ some c) : trimRightByte c l = l := by
  unfold trimRightByte
  rcases hr : l.reverse with _ | ⟨a, t⟩
  · simp only [List.dropWhile_nil, List.reverse_nil]
    rw [← l.reverse_reverse, hr]
    rfl
  · have ha : l.reverse.head? = some a := by rw [hr]; rfl
    rw [List.head?_reverse] at ha
    have hac : ¬ (a = c) := by
      intro he
      rw [he] at ha
      exact h ha
    have hd : List.dropWhile (fun b => decide (b = c)) (a :: t) = a :: t := by
      rw [List.dropWhile_cons]
      simp [hac]
    rw [hd, ← hr, l.reverse_reverse]

theorem trimRightByte_append_single (c : Nat) (l : List Nat) :
    trimRightByte c (l ++ [c]) = trimRightByte c l := by
  unfold trimRightByte
  rw [List.reverse_append]
  simp

theorem trimRightByte_append (c : Nat) (l1 l2 : List Nat)
    (h : trimRightByte c l2 ≠ []) :
    trimRightByte c (l1 ++ l2) = l1 ++ trimRightByte c l2 := by
  have hne : ¬ (l2.reverse.dropWhile (fun b => b = c)).isEmpty = true := by
    intro he
    apply h
    unfold trimRightByte
    rw [List.isEmpty_iff] at he
    rw [he]
    rfl
  unfold trimRightByte
  rw [List.reverse_append, List.dropWhile_append, if_neg hne,
    List.reverse_append, List.reverse_reverse]

/-- Byte lists joined by a separator byte. -/
def sepJoin (c : Nat) : List (List Nat) → List Nat
  | [] => []
  | [b] => b
  | b :: rest => b ++ c :: sepJoin c rest

theorem splitOn_sepJoin (c : Nat) (bodies : List (List Nat))
    (hb : bodies ≠ []) (h : ∀ b ∈ bodies, c ∉ b) :
    (sepJoin c bodies).splitOn c = bodies := by
  induction bodies with
  | nil => exact absurd rfl hb
  | cons b rest ih =>
      cases rest with
      | nil =>
          show (sepJoin c [b]).splitOnP (· == c) = [b]
          refine List.splitOnP_eq_single _ b (fun x hx => ?_)
          simp only [beq_iff_eq]
          intro he
          exact h b (by simp) (he ▸ hx)
      | cons b2 rest2 =>
          show (sepJoin c (b :: b2 :: rest2)).splitOnP (· == c) = b :: b2 :: rest2
          have hj : sepJoin c (b :: b2 :: rest2) = b ++ c :: sepJoin c (b2 :: rest2) := rfl
          rw [hj, List.splitOnP_first (· == c) b
            (fun x hx => by
              simp only [beq_iff_eq]
              intro he
              exact h b (by simp) (he ▸ hx))
            c (by simp)]
          have := ih (by simp) (fun x hx => h x (by simp [hx]))
          rw [show (sepJoin c (b2 :: rest2)).splitOnP (· == c)
              = (sepJoin c (b2 :: rest2)).splitOn c from rfl, this]

theorem sepJoin_ne_nil (c : Nat) (b : List Nat) (rest : List (List Nat))
    (hb : b ≠ []) : sepJoin c (b :: rest) ≠ [] := by
  cases rest with
  | nil => simpa [sepJoin] using hb
  | cons b2 rest2 =>
      show b ++ c :: sepJoin c (b2 :: rest2) ≠ []
      simp

theorem trim_flatten (c : Nat) (bodies : List (List Nat))
    (hb : bodies ≠ []) (hne : ∀ b ∈ bodies, b ≠ []) (h : ∀ b ∈ bodies, c ∉ b) :
    trimRightByte c ((bodies.map (· ++ [c])).flatten) = sepJoin c bodies := by
  induction bodies with
  | nil => exact absurd rfl hb
  | cons b rest ih =>
      cases rest with
      | nil =>
          simp only [List.map_cons, List.map_nil, List.flatten_cons,
            List.flatten_nil, List.append_nil]
          rw [trimRightByte_append_single,
            trimRightByte_eq_self c b ?hlast]
          · rfl
          case hlast =>
            intro hl
            have hbne := hne b (by simp)
            have hmem : c ∈ b := by
              have := List.getLast?_eq_getLast b hbne
              rw [this] at hl
              cases hl
              exact List.getLast_mem hbne
            exact h b (by simp) hmem
      | cons b2 rest2 =>
          have hrec := ih (by simp)
            (fun x hx => hne x (by simp [hx]))
            (fun x hx => h x (by simp [hx]))
          have hjne : sepJoin c (b2 :: rest2) ≠ [] :=
            sepJoin_ne_nil c b2 rest2 (hne b2 (by simp))
          have hfl : (List.map (fun x => x ++ [c]) (b :: b2 :: rest2)).flatten
              = (b ++ [c]) ++ (List.map (fun x => x ++ [c]) (b2 :: rest2)).flatten := by
            simp
          rw [hfl, trimRightByte_append c (b ++ [c]) _ (by
            rw [hrec]
            exact hjne), hrec]
          show (b ++ [c]) ++ sepJoin c (b2 :: rest2) = sepJoin c (b :: b2 :: rest2)
          simp [sepJoin]

/-! ## C8: per-line round trip -/

/-- One saved line without its trailing newline. -/
def lineBody (r : Record) : List Nat :=
  goItoa r.id ++ 9 :: (r.domain ++ 9 :: (r.rtype ++ 9 :: r.value))

theorem storeLine_eq (r : Record) : storeLine r = lineBody r ++ [10] := by
  simp [storeLine, lineBody]

/-- Saved-record well-formedness: the fields survive the TSV line format.
Tabs or newlines in the domain or value, a trailing CR in the value, or a
type outside {A, AAAA, CNAME} would change or lose the record on reload. -/
def wfRecord (r : Record) : Prop :=
  9 ∉ r.domain ∧ 10 ∉ r.domain ∧ 9 ∉ r.value ∧ 10 ∉ r.value ∧
  r.value.getLast? ≠ some 13 ∧
  (r.rtype = typeA ∨ r.rtype = typeAAAA ∨ r.rtype = typeCNAME)

theorem lineBody_ne_nil (r : Record) : lineBody r ≠ [] := by
  unfold lineBody
  simp

theorem rtype_bytes (r : Record)
    (hty : r.rtype = typeA ∨ r.rtype = typeAAAA ∨ r.rtype = typeCNAME) :
    9 ∉ r.rtype ∧ 10 ∉ r.rtype := by
  rcases hty with h | h | h <;> rw [h] <;> constructor <;> decide

theorem lineBody_no_newline (r : Record) (hw : wfRecord r) :
    10 ∉ lineBody r := by
  obtain ⟨h9d, h10d, h9v, h10v, h13, hty⟩ := hw
  obtain ⟨h9t, h10t⟩ := rtype_bytes r hty
  unfold lineBody
  intro hmem
  simp only [List.mem_append, List.mem_cons] at hmem
  rcases hmem with hmem | hmem | hmem | hmem | hmem | hmem | hmem
  · rcases goItoa_mem r.id 10 hmem with h | h <;> omega
  · omega
  · exact h10d hmem
  · omega
  · exact h10t hmem
  · omega
  · exact h10v hmem

theorem splitOn_lineBody (r : Record) (hw : wfRecord r) :
    (lineBody r).splitOn 9 = [goItoa r.id, r.domain, r.rtype, r.value] := by
  obtain ⟨h9d, h10d, h9v, h10v, h13, hty⟩ := hw
  obtain ⟨h9t, h10t⟩ := rtype_bytes r hty
  have hi : ∀ x ∈ goItoa r.id, ¬(x == 9) = true := by
    intro x hx
    simp only [beq_iff_eq]
    rcases goItoa_mem r.id x hx with h | h <;> omega
  have hd : ∀ x ∈ r.domain, ¬(x == 9) = true := by
    intro x hx
    simp only [beq_iff_eq]
    intro he
    exact h9d (he ▸ hx)
  have ht : ∀ x ∈ r.rtype, ¬(x == 9) = true := by
    intro x hx
    simp only [beq_iff_eq]
    intro he
    exact h9t (he ▸ hx)
  have hv : ∀ x ∈ r.value, ¬(x == 9) = true := by
    intro x hx
    simp only [beq_iff_eq]
    intro he
    exact h9v (he ▸ hx)
  show (lineBody r).splitOnP (· == 9) = [goItoa r.id, r.domain, r.rtype, r.value]
  unfold lineBody
  rw [List.splitOnP_first (· == 9) (goItoa r.id) hi 9 (by simp),
    List.splitOnP_first (· == 9) r.domain hd 9 (by simp),
    List.splitOnP_first (· == 9) r.rtype ht 9 (by simp),
    List.splitOnP_eq_single (· == 9) r.value hv]

theorem lineBody_getLast (r : Record) (hw : wfRecord r) :
    (lineBody r).getLast? ≠ some 13 := by
  obtain ⟨h9d, h10d, h9v, h10v, h13, hty⟩ := hw
  have he : lineBody r
      = (goItoa r.id ++ 9 :: (r.domain ++ 9 :: r.rtype)) ++ 9 :: r.value := by
    unfold lineBody
    simp
  rw [he, List.getLast?_append]
  cases hv : r.value with
  | nil => simp
  | cons a t =>
      rw [List.getLast?_cons_cons]
      have h2 : (a :: t).getLast? = r.value.getLast? := by rw [hv]
      rw [h2]
      cases hl : r.value.getLast? with
      | none =>
          rw [hv] at hl
          simp at hl
      | some b =>
          rw [hl] at h13
          have hb : ¬ b = 13 := by
            intro he2
            exact h13 (by rw [he2])
          simp [Option.or, hb]

theorem parseStoreLine_lineBody (r : Record) (hw : wfRecord r) :
    parseStoreLine (lineBody r) = some r := by
  have hsplit := splitOn_lineBody r hw
  have hlast := lineBody_getLast r hw
  have hne := lineBody_ne_nil r
  obtain ⟨h9d, h10d, h9v, h10v, h13, hty⟩ := hw
  unfold parseStoreLine
  dsimp only
  rw [trimRightByte_eq_self 13 (lineBody r) hlast, if_neg hne, hsplit]
  rw [if_pos (by rfl)]
  have hgd0 : List.getD [goItoa r.id, r.domain, r.rtype, r.value] 0 [] =
      goItoa r.id := rfl
  rw [hgd0, goAtoi_goItoa]
  show (if r.rtype = typeA ∨ r.rtype = typeAAAA ∨ r.rtype = typeCNAME then
      some (⟨r.id, r.domain, r.rtype, r.value⟩ : Record) else none) = some r
  rw [if_pos hty]

/-- The load fold accumulates the parsed records in order and the running
maximum id over them. -/
theorem load_fold (lines : List (List Nat)) :
    ∀ acc : List Record × Int,
      lines.foldl (fun (acc : List Record × Int) line =>
        match parseStoreLine line with
        | none => acc
        | some r => (acc.1 ++ [r], if acc.2 < r.id then r.id else acc.2)) acc
      = (acc.1 ++ lines.filterMap parseStoreLine,
         (lines.filterMap parseStoreLine).foldl
           (fun m r => if m < r.id then r.id else m) acc.2) := by
  induction lines with
  | nil =>
      intro acc
      simp
  | cons line rest ih =>
      intro acc
      simp only [List.foldl_cons]
      cases hp : parseStoreLine line with
      | none =>
          rw [ih]
          simp [List.filterMap_cons, hp]
      | some r =>
          rw [ih]
          simp [List.filterMap_cons, hp]

theorem filterMap_lineBody (rs : List Record) (h : ∀ r ∈ rs, wfRecord r) :
    (rs.map lineBody).filterMap parseStoreLine = rs := by
  induction rs with
  | nil => rfl
  | cons r rest ih =>
      simp only [List.map_cons, List.filterMap_cons,
        parseStoreLine_lineBody r (h r (by simp))]
      rw [ih (fun x hx => h x (by simp [hx]))]

/-- The maximum id computation of Store.load (0 when there are no records). -/
def maxIDOf (rs : List Record) : Int :=
  rs.foldl (fun m r => if m < r.id then r.id else m) 0

theorem saveStore_eq (s : Store) :
    saveStore s = ((s.records.map lineBody).map (· ++ [10])).flatten := by
  unfold saveStore
  rw [List.map_map]
  congr 1
  apply List.map_congr_left
  intro r _
  exact storeLine_eq r

/-- Reloading the bytes written by save yields the same records in the same
order with the same ids, and seeds nextID with the maximum id plus one. -/
theorem loadStore_saveStore (s : Store) (h : ∀ r ∈ s.records, wfRecord r) :
    loadStore (saveStore s) = ⟨s.records, maxIDOf s.records + 1⟩ := by
  rcases hrs : s.records with _ | ⟨r0, rest⟩
  · have hempty : saveStore s = [] := by
      rw [saveStore_eq, hrs]
      rfl
    rw [hempty]
    unfold loadStore
    rw [if_pos rfl]
    rfl
  · rw [hrs] at h
    have hbne : ∀ b ∈ (r0 :: rest).map lineBody, b ≠ [] := by
      intro b hb
      rw [List.mem_map] at hb
      obtain ⟨x, _, rfl⟩ := hb
      exact lineBody_ne_nil x
    have hb10 : ∀ b ∈ (r0 :: rest).map lineBody, 10 ∉ b := by
      intro b hb
      rw [List.mem_map] at hb
      obtain ⟨x, hx, rfl⟩ := hb
      exact lineBody_no_newline x (h x hx)
    have hdata : saveStore s
        = (((r0 :: rest).map lineBody).map (· ++ [10])).flatten := by
      rw [saveStore_eq, hrs]
    have hdne : saveStore s ≠ [] := by
      rw [hdata]
      simp
    unfold loadStore
    rw [if_neg hdne, hdata]
    dsimp only
    rw [trim_flatten 10 ((r0 :: rest).map lineBody) (by simp) hbne hb10,
      splitOn_sepJoin 10 ((r0 :: rest).map lineBody) (by simp) hb10,
      load_fold ((r0 :: rest).map lineBody) ([], 0),
      filterMap_lineBody (r0 :: rest) h]
    rfl

/-! ## C8: stores built by a sequence of Add operations -/

/-- The store built from the empty store (a missing backing file) by a
sequence of Add calls. -/
def addAll (inputs : List Record) : Store :=
  inputs.foldl (fun s r => (Store.Add s r).2) ⟨[], 1⟩

theorem maxIDOf_append_single (rs : List Record) (x : Record) :
    maxIDOf (rs ++ [x]) = if maxIDOf rs < x.id then x.id else maxIDOf rs := by
  unfold maxIDOf
  rw [List.foldl_append]
  rfl

/-- Add-only stores keep nextID = (maximum id) + 1. -/
theorem addAll_invariant (inputs : List Record) :
    (addAll inputs).nextID = maxIDOf (addAll inputs).records + 1 := by
  suffices key : ∀ s : Store, s.nextID = maxIDOf s.records + 1 →
      (inputs.foldl (fun s r => (Store.Add s r).2) s).nextID
        = maxIDOf (inputs.foldl (fun s r => (Store.Add s r).2) s).records + 1 by
    exact key ⟨[], 1⟩ (by decide)
  induction inputs with
  | nil => exact fun s hs => hs
  | cons r rest ih =>
      intro s hs
      simp only [List.foldl_cons]
      apply ih
      show s.nextID + 1 = maxIDOf (s.records ++
        [⟨s.nextID, goToLower r.domain, goToUpper r.rtype, r.value⟩]) + 1
      rw [maxIDOf_append_single]
      have hid : (⟨s.nextID, goToLower r.domain, goToUpper r.rtype,
          r.value⟩ : Record).id = s.nextID := rfl
      rw [hid, if_pos (by omega)]

/-- A byte below 97 is in the lower-cased string only if it was in the
original (lower-casing only produces bytes 97-122 from changed bytes). -/
theorem goToLower_mem_low (l : List Nat) (b : Nat) (hb : b < 97)
    (h : b ∉ l) : b ∉ goToLower l := by
  unfold goToLower
  intro hmem
  rw [List.mem_map] at hmem
  obtain ⟨c, hc, he⟩ := hmem
  by_cases hcase : 65 ≤ c ∧ c ≤ 90
  · rw [if_pos hcase] at he
    omega
  · rw [if_neg hcase] at he
    rw [he] at hc
    exact h hc

/-- Well-formedness of an Add input: after normalization the record is
storable (see wfRecord); the type must upper-case to a supported kind and
the domain and value must be free of tabs and newlines, with no trailing CR
in the value. -/
def wfInput (r : Record) : Prop :=
  9 ∉ r.domain ∧ 10 ∉ r.domain ∧ 9 ∉ r.value ∧ 10 ∉ r.value ∧
  r.value.getLast? ≠ some 13 ∧
  (goToUpper r.rtype = typeA ∨ goToUpper r.rtype = typeAAAA ∨
    goToUpper r.rtype = typeCNAME)

theorem addAll_wf (inputs : List Record) (h : ∀ r ∈ inputs, wfInput r) :
    ∀ r ∈ (addAll inputs).records, wfRecord r := by
  suffices key : ∀ s : Store, (∀ r ∈ s.records, wfRecord r) →
      ∀ r ∈ (inputs.foldl (fun s r => (Store.Add s r).2) s).records, wfRecord r by
    exact key ⟨[], 1⟩ (by simp)
  induction inputs with
  | nil => exact fun s hs => hs
  | cons r rest ih =>
      intro s hs
      simp only [List.foldl_cons]
      apply ih (fun x hx => h x (by simp [hx]))
      intro x hx
      simp only [Store.Add] at hx
      rcases List.mem_append.mp hx with hx | hx
      · exact hs x hx
      · rcases List.mem_singleton.mp hx with rfl
        obtain ⟨h9d, h10d, h9v, h10v, h13, hty⟩ := h r (by simp)
        exact ⟨goToLower_mem_low r.domain 9 (by omega) h9d,
          goToLower_mem_low r.domain 10 (by omega) h10d,
          h9v, h10v, h13, hty⟩

/-- C8 (amended): for every sequence of Add inputs whose fields are
storable in the TSV format — the normalized type is one of A/AAAA/CNAME,
the domain and value contain no tab or newline bytes and the value does not
end in a CR byte — reloading the saved bytes reproduces the store exactly
(same records, same ids, same order, same nextID), and the next id equals
the maximum id ever observed plus one. -/
theorem persistence_roundtrip (inputs : List Record)
    (h : ∀ r ∈ inputs, wfInput r) :
    loadStore (saveStore (addAll inputs)) = addAll inputs ∧
    (addAll inputs).nextID = maxIDOf (addAll inputs).records + 1 := by
  have hinv := addAll_invariant inputs
  constructor
  · rw [loadStore_saveStore (addAll inputs) (addAll_wf inputs h), ← hinv]
  · exact hinv

instance (r : Record) : Decidable (wfInput r) := by
  unfold wfInput
  exact inferInstance

/-- C8 counterexample: Add accepts a record whose type "t" normalizes to
"T", which is not a supported kind; save writes it, but load skips the line,
so the reloaded record set (empty) differs from the original (one record). -/
theorem persistence_roundtrip_counterexample :
    (addAll [⟨0, [97], [116], [118]⟩]).records = [⟨1, [97], [84], [118]⟩] ∧
    (loadStore (saveStore (addAll [⟨0, [97], [116], [118]⟩]))).records = [] := by
  have hrec : (addAll [⟨0, [97], [116], [118]⟩])
      = ⟨[⟨1, [97], [84], [118]⟩], 2⟩ := by decide
  have h1 : goItoa (1 : Int) = [49] := by
    unfold goItoa
    rw [if_neg (by norm_num)]
    unfold natToDigits
    norm_num
  have hsave : saveStore (addAll [⟨0, [97], [116], [118]⟩])
      = [49, 9, 97, 9, 84, 9, 118, 10] := by
    rw [hrec]
    unfold saveStore storeLine
    simp only [List.map_cons, List.map_nil, List.flatten_cons,
      List.flatten_nil]
    rw [h1]
    rfl
  refine ⟨by decide, ?_⟩
  rw [hsave]
  decide

/-- C8 witness: a single well-formed Add ("a", type "a" normalized to A,
value "1.2.3.4") reloads to the identical store, and its nextID is the
maximum id plus one. -/
theorem persistence_roundtrip_witness :
    loadStore (saveStore (addAll [⟨0, [97], [97], [49, 46, 50, 46, 51, 46, 52]⟩]))
      = addAll [⟨0, [97], [97], [49, 46, 50, 46, 51, 46, 52]⟩] ∧
    (addAll [⟨0, [97], [97], [49, 46, 50, 46, 51, 46, 52]⟩]).nextID
      = maxIDOf (addAll [⟨0, [97], [97], [49, 46, 50, 46, 51, 46, 52]⟩]).records + 1 :=
  persistence_roundtrip [⟨0, [97], [97], [49, 46, 50, 46, 51, 46, 52]⟩]
    (by decide)

end Regieleki
